import Mathlib

/-!
Shallow embedding of `substruct_generation.py` (hierarchical SMARTS
substructure-library generator) and verification of its specification.

Python strings are modelled as `String`, Python tuples of strings as
`List String`.  Python's polymorphic comparison of strings (code-point
lexicographic) and of tuples (element-wise lexicographic) is modelled by
the executable Boolean orders `charLt`, `strLt`, `seqLt` below.
Python's `min`, which raises on an empty iterable, is modelled by the
`Option`-valued `pymin`.  A `KeyError` from a failed catalog lookup is
modelled by `Option` propagation through `build_smarts`.
-/

/-- Strict code-point order on characters, as Python compares the
characters of a string. -/
def charLt (a b : Char) : Bool := decide (a.toNat < b.toNat)

/-- Lexicographic lifting of a strict order to lists; this is exactly how
Python compares two strings or two tuples element-wise (a shorter
sequence that is an initial segment of a longer one compares smaller). -/
def lexLt [DecidableEq α] (lt : α → α → Bool) : List α → List α → Bool
  | _, [] => false
  | [], _ :: _ => true
  | a :: as, b :: bs => lt a b || (decide (a = b) && lexLt lt as bs)

/-- A strict linear order given as a Boolean relation: irreflexive,
transitive, and connected (mutually non-less elements are equal). -/
def StrictOrd (lt : α → α → Bool) : Prop :=
  (∀ a, lt a a = false) ∧
  (∀ a b c, lt a b = true → lt b c = true → lt a c = true) ∧
  (∀ a b, lt a b = false → lt b a = false → a = b)

theorem charLt_strict : StrictOrd charLt := by
  refine ⟨?_, ?_, ?_⟩
  · intro a; simp [charLt]
  · intro a b c h1 h2
    simp only [charLt, decide_eq_true_eq] at *
    omega
  · intro a b h1 h2
    simp only [charLt, decide_eq_false_iff_not, not_lt] at h1 h2
    exact Char.ext (UInt32.toNat.inj (Nat.le_antisymm h2 h1))

theorem lexLt_strict [DecidableEq α] (lt : α → α → Bool) (h : StrictOrd lt) :
    StrictOrd (lexLt lt) := by
  obtain ⟨hirr, htrans, hconn⟩ := h
  refine ⟨?_, ?_, ?_⟩
  · intro l
    induction l with
    | nil => rfl
    | cons a as ih => simp [lexLt, hirr, ih]
  · intro l
    induction l with
    | nil =>
      intro m k h1 h2
      cases m with
      | nil => simp [lexLt] at h1
      | cons b bs =>
        cases k with
        | nil => simp [lexLt] at h2
        | cons c cs => simp [lexLt]
    | cons a as ih =>
      intro m k h1 h2
      cases m with
      | nil => simp [lexLt] at h1
      | cons b bs =>
        cases k with
        | nil => simp [lexLt] at h2
        | cons c cs =>
          simp only [lexLt, Bool.or_eq_true, Bool.and_eq_true,
            decide_eq_true_eq] at h1 h2 ⊢
          rcases h1 with h1 | ⟨rfl, h1⟩
          · rcases h2 with h2 | ⟨rfl, h2⟩
            · exact Or.inl (htrans _ _ _ h1 h2)
            · exact Or.inl h1
          · rcases h2 with h2 | ⟨rfl, h2⟩
            · exact Or.inl h2
            · exact Or.inr ⟨rfl, ih bs cs h1 h2⟩
  · intro l
    induction l with
    | nil =>
      intro m h1 h2
      cases m with
      | nil => rfl
      | cons b bs => simp [lexLt] at h1
    | cons a as ih =>
      intro m h1 h2
      cases m with
      | nil => simp [lexLt] at h2
      | cons b bs =>
        simp only [lexLt, Bool.or_eq_false_iff, Bool.and_eq_false_iff,
          decide_eq_false_iff_not] at h1 h2
        obtain ⟨hab, h1'⟩ := h1
        obtain ⟨hba, h2'⟩ := h2
        have hab' : a = b := hconn a b hab hba
        subst hab'
        rcases h1' with h1' | h1'
        · exact absurd rfl h1'
        · rcases h2' with h2' | h2'
          · exact absurd rfl h2'
          · rw [ih bs h1' h2']

/-- Python's `str < str` (code-point lexicographic). -/
def strLt (s t : String) : Bool := lexLt charLt s.data t.data

/-- Python's `tuple < tuple` for tuples of strings. -/
def seqLt (s t : List String) : Bool := lexLt strLt s t

theorem strLt_strict : StrictOrd strLt := by
  obtain ⟨hirr, htrans, hconn⟩ := lexLt_strict charLt charLt_strict
  exact ⟨fun a => hirr a.data, fun a b c => htrans a.data b.data c.data,
    fun a b h1 h2 => String.ext (hconn a.data b.data h1 h2)⟩

theorem seqLt_strict : StrictOrd seqLt := lexLt_strict strLt strLt_strict

/-- Python `min` over a list of string tuples: `none` models the
`ValueError` raised on an empty iterable; otherwise the running minimum
is folded exactly as CPython does (the current best is replaced only
when a strictly smaller element arrives). -/
def pymin : List (List String) → Option (List String)
  | [] => none
  | x :: xs => some (xs.foldl (fun best y => if seqLt y best then y else best) x)

theorem pymin_fold_spec (xs : List (List String)) (best : List String) :
    (xs.foldl (fun b y => if seqLt y b then y else b) best) ∈ best :: xs ∧
    ∀ x ∈ best :: xs,
      seqLt x (xs.foldl (fun b y => if seqLt y b then y else b) best) = false := by
  obtain ⟨hirr, htrans, hconn⟩ := seqLt_strict
  induction xs generalizing best with
  | nil => exact ⟨List.mem_singleton.mpr rfl, by simpa using hirr best⟩
  | cons y ys ih =>
    simp only [List.foldl_cons]
    by_cases hy : seqLt y best = true
    · simp only [hy, if_pos]
      obtain ⟨hmem, hmin⟩ := ih y
      constructor
      · rcases List.mem_cons.mp hmem with h | h
        · exact List.mem_cons.mpr (Or.inr (by rw [h]; exact List.mem_cons_self y ys))
        · exact List.mem_cons.mpr (Or.inr (List.mem_cons.mpr (Or.inr h)))
      · intro x hx
        rcases List.mem_cons.mp hx with rfl | hx'
        · by_contra hcon
          have hxlt : seqLt x (ys.foldl (fun b z => if seqLt z b then z else b) y) = true := by
            revert hcon; cases seqLt x (ys.foldl (fun b z => if seqLt z b then z else b) y) <;> simp
          have hyr := htrans _ _ _ hy hxlt
          have hymin := hmin y (List.mem_cons_self y ys)
          rw [hymin] at hyr
          exact Bool.false_ne_true hyr
        · exact hmin x hx'
    · have hyf : seqLt y best = false := by revert hy; cases seqLt y best <;> simp
      simp only [hyf, Bool.false_eq_true, if_neg, not_false_iff]
      obtain ⟨hmem, hmin⟩ := ih best
      constructor
      · rcases List.mem_cons.mp hmem with h | h
        · exact List.mem_cons.mpr (Or.inl h)
        · exact List.mem_cons.mpr (Or.inr (List.mem_cons.mpr (Or.inr h)))
      · intro x hx
        rcases List.mem_cons.mp hx with rfl | hx'
        · exact hmin x (List.mem_cons_self x ys)
        rcases List.mem_cons.mp hx' with rfl | hx''
        · by_contra hcon
          have hxlt : seqLt x (ys.foldl (fun b z => if seqLt z b then z else b) best) = true := by
            revert hcon; cases seqLt x (ys.foldl (fun b z => if seqLt z b then z else b) best) <;> simp
          have hbmin := hmin best (List.mem_cons_self best ys)
          cases hby : seqLt best x with
          | false =>
            have hxb : x = best := hconn x best hyf hby
            rw [hxb] at hxlt
            rw [hbmin] at hxlt
            exact Bool.false_ne_true hxlt
          | true =>
            have hbr := htrans _ _ _ hby hxlt
            rw [hbmin] at hbr
            exact Bool.false_ne_true hbr
        · exact hmin x (List.mem_cons.mpr (Or.inr hx''))

theorem pymin_spec {l : List (List String)} {m : List String}
    (h : pymin l = some m) : m ∈ l ∧ ∀ x ∈ l, seqLt x m = false := by
  cases l with
  | nil => simp [pymin] at h
  | cons x xs =>
    simp only [pymin, Option.some_inj] at h
    obtain ⟨hmem, hmin⟩ := pymin_fold_spec xs x
    subst h
    exact ⟨hmem, hmin⟩

theorem pymin_isSome {l : List (List String)} (h : l ≠ []) :
    ∃ m, pymin l = some m := by
  cases l with
  | nil => exact absurd rfl h
  | cons x xs => exact ⟨_, rfl⟩

theorem pymin_congr {l₁ l₂ : List (List String)}
    (h : ∀ x, x ∈ l₁ ↔ x ∈ l₂) : pymin l₁ = pymin l₂ := by
  obtain ⟨hirr, htrans, hconn⟩ := seqLt_strict
  cases h1 : pymin l₁ with
  | none =>
    cases h2 : pymin l₂ with
    | none => rfl
    | some m₂ =>
      obtain ⟨hmem, _⟩ := pymin_spec h2
      have : m₂ ∈ l₁ := (h m₂).mpr hmem
      cases hl : l₁ with
      | nil => rw [hl] at this; simp at this
      | cons a as => rw [hl] at h1; simp [pymin] at h1
  | some m₁ =>
    cases h2 : pymin l₂ with
    | none =>
      obtain ⟨hmem, _⟩ := pymin_spec h1
      have : m₁ ∈ l₂ := (h m₁).mp hmem
      cases hl : l₂ with
      | nil => rw [hl] at this; simp at this
      | cons a as => rw [hl] at h2; simp [pymin] at h2
    | some m₂ =>
      obtain ⟨hmem1, hmin1⟩ := pymin_spec h1
      obtain ⟨hmem2, hmin2⟩ := pymin_spec h2
      have ha := hmin1 m₂ ((h m₂).mpr hmem2)
      have hb := hmin2 m₁ ((h m₁).mp hmem1)
      rw [hconn m₂ m₁ ha hb]

/-! ### String helpers modelling Python string operations -/

/-- Boolean test that `pat` is a leading segment of `s`. -/
def startsWithL : List Char → List Char → Bool
  | _, [] => true
  | [], _ :: _ => false
  | c :: cs, p :: ps => decide (c = p) && startsWithL cs ps

/-- Python's `s.endswith(pat)`. -/
def endsWithL (s pat : List Char) : Bool := startsWithL s.reverse pat.reverse

/-- Python's `pat in s` (contiguous substring test). -/
def containsSubL (s pat : List Char) : Bool :=
  match s with
  | [] => startsWithL [] pat
  | c :: rest => startsWithL (c :: rest) pat || containsSubL rest pat

/-- Python's `s.replace(pat, rep)` (all non-overlapping occurrences,
left to right), written with a fuel argument so the recursion is
structural and kernel-reducible; the `pat ≠ []` guard keeps the fuel
invariant and is never exercised, since every pattern replaced by the
source is non-empty.  Each step consumes at least one character, so fuel
`s.length` is always sufficient and the fuel-exhaustion case is dead. -/
def replaceAllGo (pat rep : List Char) : Nat → List Char → List Char
  | _, [] => []
  | 0, s => s
  | fuel + 1, c :: rest =>
    if pat ≠ [] ∧ startsWithL (c :: rest) pat = true then
      rep ++ replaceAllGo pat rep fuel ((c :: rest).drop pat.length)
    else
      c :: replaceAllGo pat rep fuel rest

/-- Python's `s.replace(pat, rep)`. -/
def replaceAllL (s pat rep : List Char) : List Char := replaceAllGo pat rep s.length s

/-- Python's `s.replace(pat, rep, 1)` (first occurrence only). -/
def replaceFirstL (s pat rep : List Char) : List Char :=
  match s with
  | [] => []
  | c :: rest =>
    if startsWithL (c :: rest) pat then rep ++ (c :: rest).drop pat.length
    else c :: replaceFirstL rest pat rep

/-- Python's `(p_str.split('|', 1) + [''])[:2]`: the text before the
first `'|'` and the text after it (empty when there is no `'|'`). -/
def splitBarL : List Char → List Char × List Char
  | [] => ([], [])
  | c :: rest =>
    if c = '|' then ([], rest)
    else
      let p := splitBarL rest
      (c :: p.1, p.2)

/-- String-level wrapper for `pat in s`. -/
def pyContains (s pat : String) : Bool := containsSubL s.data pat.data

/-- String-level wrapper for `s.endswith(pat)`. -/
def pyEndsWith (s pat : String) : Bool := endsWithL s.data pat.data

/-- String-level wrapper for `s.replace(pat, rep)`. -/
def pyReplace (s pat rep : String) : String := String.mk (replaceAllL s.data pat.data rep.data)

/-- String-level wrapper for `s.replace(pat, rep, 1)`. -/
def pyReplace1 (s pat rep : String) : String := String.mk (replaceFirstL s.data pat.data rep.data)

/-- String-level wrapper for splitting at the first `'|'`. -/
def pySplitBar (s : String) : String × String :=
  let p := splitBarL s.data
  (String.mk p.1, String.mk p.2)

/-! ### Vocabulary constants (verbatim from the source) -/

def L0_SMARTS : String := "[a:1]1:a:a:a:a:1"

def C_STAR : String := "[#6](*)"

def N_NOSTAR : String := "[#7+0]"

def N_STAR : String := "[#7+0](*)"

def O_ATOM : String := "[#8]"

def S_ATOM : String := "[#16]"

def H_TOKEN : String := "[#1]"

def SUBSTITUENT_CATALOG : List (String × String) :=
  [("C1", "[CH3,CH2]"), ("C2", "[CH,CH0]"), ("C3", "[c]"),
   ("N1", "[NH2,NH,N+]"), ("N2", "[N+0H0]"), ("N3", "[n+0]"),
   ("O1", "[O]"), ("S1", "[S]"), ("F", "[F]"), ("Cl", "[Cl]")]

/-- Python dict read `SUBSTITUENT_CATALOG[tag]`; `none` models the fatal
`KeyError` on an unrecognized substituent code. -/
def dictGet : List (String × String) → String → Option String
  | [], _ => none
  | (k, v) :: rest, tag => if k = tag then some v else dictGet rest tag

/-- Python's `list(SUBSTITUENT_CATALOG.keys())`. -/
def APPLICABLE_SUBSTITUENTS : List String := SUBSTITUENT_CATALOG.map Prod.fst

/-! ### The two canonicalizers -/

/-- The function `canonical_reflect_tuple(seq)`: Python's `min(tuple(seq),
tuple(reversed(seq)))` — the reversal is returned only when it compares
strictly smaller, exactly as CPython's two-argument `min`. -/
def canonical_reflect_tuple (seq : List String) : List String :=
  if seqLt seq.reverse seq then seq.reverse else seq

/-- One left rotation `current[1:] + current[:1]`. -/
def rotl (l : List String) : List String := l.drop 1 ++ l.take 1

/-- The candidate list `reps` accumulated by the loop in
`canonical_necklace`: `n` iterations, each appending the current forward
and reversed rotations and then rotating both one step. -/
def necklaceReps (fwd rv : List String) : Nat → List (List String)
  | 0 => []
  | n + 1 => fwd :: rv :: necklaceReps (rotl fwd) (rotl rv) n

/-- The function `canonical_necklace(seq)`: `min(reps)`, which raises (here: `none`)
when `seq` is empty because `reps` is then empty. -/
def canonical_necklace (seq : List String) : Option (List String) :=
  pymin (necklaceReps seq seq.reverse seq.length)

theorem rotl_eq_rotate (l : List String) : rotl l = l.rotate 1 := by
  cases l with
  | nil => rfl
  | cons a t =>
    simp [rotl, List.rotate_cons_succ, List.rotate_zero]

theorem mem_necklaceReps (x fwd rv : List String) (k : Nat) :
    x ∈ necklaceReps fwd rv k ↔
      ∃ j, j < k ∧ (x = fwd.rotate j ∨ x = rv.rotate j) := by
  induction k generalizing fwd rv with
  | zero => simp [necklaceReps]
  | succ n ih =>
    simp only [necklaceReps, List.mem_cons, ih, rotl_eq_rotate,
      List.rotate_rotate]
    constructor
    · rintro (h | h | ⟨j, hj, hx | hx⟩)
      · exact ⟨0, Nat.succ_pos n, Or.inl (by rw [h, List.rotate_zero])⟩
      · exact ⟨0, Nat.succ_pos n, Or.inr (by rw [h, List.rotate_zero])⟩
      · exact ⟨1 + j, by omega, Or.inl hx⟩
      · exact ⟨1 + j, by omega, Or.inr hx⟩
    · rintro ⟨j, hj, hx | hx⟩
      · cases j with
        | zero => exact Or.inl (by rw [hx, List.rotate_zero])
        | succ m =>
          exact Or.inr (Or.inr ⟨m, by omega, Or.inl (by rw [hx]; congr 1; omega)⟩)
      · cases j with
        | zero => exact Or.inr (Or.inl (by rw [hx, List.rotate_zero]))
        | succ m =>
          exact Or.inr (Or.inr ⟨m, by omega, Or.inr (by rw [hx]; congr 1; omega)⟩)

/-- The `2n` sequences the specification describes: every rotation of
`seq`, and every rotation of its reversal (a rotation composed with the
optional reflection). -/
def dihedralImages (s : List String) : List (List String) :=
  ((List.range s.length).map fun k => s.rotate k) ++
    ((List.range s.length).map fun k => s.reverse.rotate k)

theorem mem_dihedralImages (x s : List String) :
    x ∈ dihedralImages s ↔
      ∃ j, j < s.length ∧ (x = s.rotate j ∨ x = s.reverse.rotate j) := by
  simp only [dihedralImages, List.mem_append, List.mem_map, List.mem_range]
  constructor
  · rintro (⟨j, hj, rfl⟩ | ⟨j, hj, rfl⟩)
    · exact ⟨j, hj, Or.inl rfl⟩
    · exact ⟨j, hj, Or.inr rfl⟩
  · rintro ⟨j, hj, rfl | rfl⟩
    · exact Or.inl ⟨j, hj, rfl⟩
    · exact Or.inr ⟨j, hj, rfl⟩

theorem canonical_necklace_eq_pymin_dihedral (s : List String) :
    canonical_necklace s = pymin (dihedralImages s) := by
  refine pymin_congr fun x => ?_
  rw [mem_necklaceReps, mem_dihedralImages]

theorem dihedral_ne_nil {s : List String} (hs : s ≠ []) :
    dihedralImages s ≠ [] := by
  have h0 : s ∈ dihedralImages s := by
    rw [mem_dihedralImages]
    exact ⟨0, List.length_pos.mpr hs, Or.inl (List.rotate_zero s).symm⟩
  exact List.ne_nil_of_mem h0

theorem mem_dihedral_iff_isRotated {s : List String} (hs : s ≠ [])
    (x : List String) :
    x ∈ dihedralImages s ↔ (s.IsRotated x ∨ s.reverse.IsRotated x) := by
  have hlen : 0 < s.length := List.length_pos.mpr hs
  rw [mem_dihedralImages]
  constructor
  · rintro ⟨j, hj, rfl | rfl⟩
    · exact Or.inl ⟨j, rfl⟩
    · exact Or.inr ⟨j, rfl⟩
  · rintro (⟨m, hm⟩ | ⟨m, hm⟩)
    · refine ⟨m % s.length, Nat.mod_lt m hlen, Or.inl ?_⟩
      rw [List.rotate_mod, hm]
    · refine ⟨m % s.length, Nat.mod_lt m hlen, Or.inr ?_⟩
      rw [← List.length_reverse s, List.rotate_mod, hm]

theorem dihedral_congr_of_isRotated {s t : List String} (hs : s ≠ [])
    (ht : t ≠ []) (h : s.IsRotated t ∨ s.reverse.IsRotated t) (x : List String) :
    x ∈ dihedralImages t ↔ x ∈ dihedralImages s := by
  rw [mem_dihedral_iff_isRotated hs x, mem_dihedral_iff_isRotated ht x]
  rcases h with h | h
  · constructor
    · rintro (h1 | h1)
      · exact Or.inl (h.trans h1)
      · exact Or.inr ((List.IsRotated.reverse h).trans h1)
    · rintro (h1 | h1)
      · exact Or.inl (h.symm.trans h1)
      · exact Or.inr ((List.IsRotated.reverse h.symm).trans h1)
  · have h' : s.IsRotated t.reverse := by
      have h2 := List.IsRotated.reverse h
      rw [List.reverse_reverse] at h2
      exact h2
    constructor
    · rintro (h1 | h1)
      · exact Or.inr (h.trans h1)
      · exact Or.inl (h'.trans h1)
    · rintro (h1 | h1)
      · exact Or.inr (h'.symm.trans h1)
      · exact Or.inl (h.symm.trans h1)

theorem canonical_necklace_rotate (s : List String) (k : Nat) :
    canonical_necklace (s.rotate k) = canonical_necklace s := by
  cases hs : s with
  | nil => simp [List.rotate_nil]
  | cons a t =>
    rw [← hs]
    have hns : s ≠ [] := by rw [hs]; exact List.cons_ne_nil a t
    have hnt : s.rotate k ≠ [] := by
      intro hcon
      exact hns (by simpa using congrArg List.length hcon)
    rw [canonical_necklace_eq_pymin_dihedral, canonical_necklace_eq_pymin_dihedral]
    exact pymin_congr (dihedral_congr_of_isRotated hns hnt (Or.inl ⟨k, rfl⟩))

theorem canonical_necklace_reverse (s : List String) :
    canonical_necklace s.reverse = canonical_necklace s := by
  cases hs : s with
  | nil => simp
  | cons a t =>
    rw [← hs]
    have hns : s ≠ [] := by rw [hs]; exact List.cons_ne_nil a t
    have hnt : s.reverse ≠ [] := by
      intro hcon
      exact hns (by simpa using congrArg List.length hcon)
    rw [canonical_necklace_eq_pymin_dihedral, canonical_necklace_eq_pymin_dihedral]
    exact pymin_congr (dihedral_congr_of_isRotated hns hnt (Or.inr (List.IsRotated.refl _)))

/-- Claim C5: for every non-empty sequence `s` of length `n`,
`canonical_necklace s` returns the lexicographic minimum of the `2n`
sequences obtained from `s` by any rotation composed with an optional
reflection (the list `dihedralImages s`, which has `2n` entries). -/
theorem claim_C5 (s : List String) (hs : s ≠ []) :
    ∃ m, canonical_necklace s = some m ∧
      (dihedralImages s).length = 2 * s.length ∧
      m ∈ dihedralImages s ∧
      ∀ x ∈ dihedralImages s, seqLt x m = false := by
  have heq := canonical_necklace_eq_pymin_dihedral s
  obtain ⟨m, hm⟩ := pymin_isSome (dihedral_ne_nil hs)
  obtain ⟨hmem, hmin⟩ := pymin_spec hm
  refine ⟨m, heq.trans hm, ?_, hmem, hmin⟩
  simp [dihedralImages, Nat.two_mul]

/-- Witness for C5 at the concrete two-token sequence
`(C_STAR, N_NOSTAR)`. -/
theorem claim_C5_witness :
    ∃ m, canonical_necklace [C_STAR, N_NOSTAR] = some m ∧
      (dihedralImages [C_STAR, N_NOSTAR]).length = 2 * [C_STAR, N_NOSTAR].length ∧
      m ∈ dihedralImages [C_STAR, N_NOSTAR] ∧
      ∀ x ∈ dihedralImages [C_STAR, N_NOSTAR], seqLt x m = false :=
  claim_C5 [C_STAR, N_NOSTAR] (by decide)

/-- Claim C6: both canonicalizers are idempotent and invariant under
every symmetry of their group — reversal for `canonical_reflect_tuple`;
any rotation, with or without a prior reflection, for
`canonical_necklace` (idempotence of the latter is stated in Kleisli
form because the empty sequence yields `none`). -/
theorem claim_C6 :
    (∀ s : List String,
      canonical_reflect_tuple (canonical_reflect_tuple s) = canonical_reflect_tuple s) ∧
    (∀ s : List String, canonical_reflect_tuple s.reverse = canonical_reflect_tuple s) ∧
    (∀ s : List String,
      (canonical_necklace s).bind canonical_necklace = canonical_necklace s) ∧
    (∀ (s : List String) (k : Nat),
      canonical_necklace (s.rotate k) = canonical_necklace s) ∧
    (∀ (s : List String) (k : Nat),
      canonical_necklace (s.reverse.rotate k) = canonical_necklace s) := by
  obtain ⟨hirr, htrans, hconn⟩ := seqLt_strict
  refine ⟨?_, ?_, ?_, canonical_necklace_rotate, ?_⟩
  · intro s
    unfold canonical_reflect_tuple
    cases h : seqLt s.reverse s with
    | false => simp [h]
    | true =>
      simp only [h, if_pos]
      have hrr : seqLt s s.reverse = false := by
        cases hc : seqLt s s.reverse with
        | false => rfl
        | true =>
          have := htrans _ _ _ h hc
          rw [hirr] at this
          exact absurd this (by simp)
      rw [List.reverse_reverse, hrr]
      simp
  · intro s
    unfold canonical_reflect_tuple
    rw [List.reverse_reverse]
    cases h1 : seqLt s s.reverse with
    | true =>
      have h2 : seqLt s.reverse s = false := by
        cases hc : seqLt s.reverse s with
        | false => rfl
        | true =>
          have := htrans _ _ _ h1 hc
          rw [hirr] at this
          exact absurd this (by simp)
      simp [h1, h2]
    | false =>
      cases h2 : seqLt s.reverse s with
      | true => simp [h1, h2]
      | false =>
        have heq := hconn _ _ h1 h2
        simp only [h1, h2, Bool.false_eq_true, if_false]
        exact heq.symm
  · intro s
    cases h : canonical_necklace s with
    | none => rfl
    | some m =>
      have hmem := (pymin_spec h).1
      rw [mem_necklaceReps] at hmem
      obtain ⟨j, _, hm | hm⟩ := hmem
      · rw [Option.some_bind, hm, canonical_necklace_rotate, h, hm]
      · rw [Option.some_bind, hm, canonical_necklace_rotate,
          canonical_necklace_reverse, h, hm]
  · intro s k
    rw [canonical_necklace_rotate, canonical_necklace_reverse]

/-- Counterexample for the original claim C8: on the empty sequence,
`canonical_necklace` builds an empty candidate list and Python's `min`
raises `ValueError` (modelled by `none`), so the function is not total. -/
theorem claim_C8_counterexample : canonical_necklace ([] : List String) = none := rfl

/-- Claim C8 (amended): `canonical_reflect_tuple` is total (it always
returns either the sequence or its reversal), and `canonical_necklace`
returns a value on every non-empty sequence but fails with `min()` of an
empty candidate list (modelled by `none`) on the empty sequence. -/
theorem claim_C8 :
    (∀ s : List String,
      canonical_reflect_tuple s = s ∨ canonical_reflect_tuple s = s.reverse) ∧
    (∀ s : List String, s ≠ [] → ∃ m, canonical_necklace s = some m) ∧
    canonical_necklace ([] : List String) = none := by
  refine ⟨?_, ?_, rfl⟩
  · intro s
    unfold canonical_reflect_tuple
    cases h : seqLt s.reverse s with
    | true => simp [h]
    | false => simp [h]
  · intro s hs
    refine pymin_isSome ?_
    cases h : s with
    | nil => exact absurd h hs
    | cons a t => simp [necklaceReps, h]

/-- Witness for C8 at the concrete one-token sequence `(C_STAR)`. -/
theorem claim_C8_witness : ∃ m, canonical_necklace [C_STAR] = some m :=
  claim_C8.2.1 [C_STAR] (by decide)

/-! ### The renderer `build_smarts` -/

/-- Inner helper `add_ring_label` of `build_smarts`: inject the ring
label `:1` into an atom string (idempotent if already labelled). -/
def add_ring_label (atom_str : String) : String :=
  if pyContains atom_str ":1" then atom_str
  else if pyContains atom_str "]" then pyReplace1 atom_str "]" ":1]"
  else "[" ++ atom_str ++ ":1]"

/-- One iteration of the rendering loop of `build_smarts`: split the
position string at `'|'` into atom and tag, strip the open-valence
marker whenever a tag is present, append the hydrogen cap or the
catalog sub-pattern as the tag demands (`none` models the `KeyError` on
an unknown substituent code), and ring-label position 0. -/
def smarts_part (i : Nat) (p_str : String) : Option String :=
  let atom := (pySplitBar p_str).1
  let tag := (pySplitBar p_str).2
  let current₀ := if tag ≠ "" then pyReplace atom "(*)" "" else atom
  let current₁ : Option String :=
    if tag = "H" then some (current₀ ++ "(" ++ H_TOKEN ++ ")")
    else if tag ≠ "" ∧ tag ≠ "*" then
      match dictGet SUBSTITUENT_CATALOG tag with
      | some sub => some (current₀ ++ "(" ++ sub ++ ")")
      | none => none
    else some current₀
  current₁.map fun cp => if i = 0 then add_ring_label cp else cp

/-- The rendering loop `for i, p_str in enumerate(pattern)` starting at
index `i`. -/
def smarts_parts (i : Nat) : List String → Option (List String)
  | [] => some []
  | p :: rest =>
    (smarts_part i p).bind fun cp =>
      (smarts_parts (i + 1) rest).map fun cps => cp :: cps

/-- The renderer `build_smarts(pattern)`: empty pattern renders to the empty string,
a pattern anchored by the literal `'a'` short-circuits to `L0_SMARTS`,
otherwise the rendered parts are assembled into a closed 5-ring SMARTS;
the unreachable empty-parts case is mapped to `none`. -/
def build_smarts (pattern : List String) : Option String :=
  match pattern with
  | [] => some ""
  | p0 :: _ =>
    if p0 = "a" then some L0_SMARTS
    else
      (smarts_parts 0 pattern).bind fun parts =>
        match parts with
        | [] => none
        | q0 :: qrest => some (q0 ++ "1:" ++ String.intercalate ":" qrest ++ ":1")

theorem splitBarL_noBar (t : List Char) (h : containsSubL t ['|'] = false) :
    splitBarL t = (t, []) := by
  induction t with
  | nil => rfl
  | cons c cs ih =>
    simp only [containsSubL, startsWithL, Bool.or_eq_false_iff,
      Bool.and_eq_false_iff, decide_eq_false_iff_not] at h
    obtain ⟨h1, h2⟩ := h
    have hc : c ≠ '|' := by
      rcases h1 with h1 | h1
      · exact h1
      · simp [startsWithL] at h1
    simp only [splitBarL, if_neg hc, ih h2]

theorem splitBarL_append (t tag : List Char) (h : containsSubL t ['|'] = false) :
    splitBarL (t ++ '|' :: tag) = (t, tag) := by
  induction t with
  | nil => simp [splitBarL]
  | cons c cs ih =>
    simp only [containsSubL, startsWithL, Bool.or_eq_false_iff,
      Bool.and_eq_false_iff, decide_eq_false_iff_not] at h
    obtain ⟨h1, h2⟩ := h
    have hc : c ≠ '|' := by
      rcases h1 with h1 | h1
      · exact h1
      · simp [startsWithL] at h1
    simp only [List.cons_append, splitBarL, if_neg hc]
    rw [show cs.append ('|' :: tag) = cs ++ '|' :: tag from rfl, ih h2]

theorem stringMk_data (s : String) : String.mk s.data = s := by
  cases s
  rfl

theorem pySplitBar_append (t tag : String) (h : containsSubL t.data ['|'] = false) :
    pySplitBar (t ++ "|" ++ tag) = (t, tag) := by
  unfold pySplitBar
  have hdata : (t ++ "|" ++ tag).data = t.data ++ '|' :: tag.data := by
    rw [String.data_append, String.data_append, List.append_assoc]
    rfl
  rw [hdata, splitBarL_append t.data tag.data h]

theorem pySplitBar_noBar (t : String) (h : containsSubL t.data ['|'] = false) :
    pySplitBar t = (t, "") := by
  unfold pySplitBar
  rw [splitBarL_noBar t.data h]

theorem pySplitBar_eq (s t tag : String) (hs : s.data = t.data ++ '|' :: tag.data)
    (h : containsSubL t.data ['|'] = false) : pySplitBar s = (t, tag) := by
  unfold pySplitBar
  rw [hs, splitBarL_append t.data tag.data h]

theorem data_append_star (t : String) : (t ++ "|*").data = t.data ++ '|' :: "*".data := by
  rw [String.data_append]

theorem data_append_H (t : String) : (t ++ "|H").data = t.data ++ '|' :: "H".data := by
  rw [String.data_append]

theorem data_append_bar (t : String) : (t ++ "|").data = t.data ++ '|' :: "".data := by
  rw [String.data_append]

theorem data_append_tag (t tag : String) :
    (t ++ "|" ++ tag).data = t.data ++ '|' :: tag.data := by
  rw [String.data_append, String.data_append, List.append_assoc]
  rfl

theorem smarts_part_noTag (i : Nat) (t : String)
    (h : containsSubL t.data ['|'] = false) :
    smarts_part i t = some (if i = 0 then add_ring_label t else t) := by
  unfold smarts_part
  rw [pySplitBar_noBar t h]
  simp

theorem smarts_part_star (i : Nat) (t : String)
    (h : containsSubL t.data ['|'] = false) :
    smarts_part i (t ++ "|*") =
      some (if i = 0 then add_ring_label (pyReplace t "(*)" "")
            else pyReplace t "(*)" "") := by
  unfold smarts_part
  rw [pySplitBar_eq (t ++ "|*") t "*" (data_append_star t) h]
  simp

theorem smarts_part_H (i : Nat) (t : String)
    (h : containsSubL t.data ['|'] = false) :
    smarts_part i (t ++ "|H") =
      some (if i = 0 then add_ring_label (pyReplace t "(*)" "" ++ "(" ++ H_TOKEN ++ ")")
            else pyReplace t "(*)" "" ++ "(" ++ H_TOKEN ++ ")") := by
  unfold smarts_part
  rw [pySplitBar_eq (t ++ "|H") t "H" (data_append_H t) h]
  simp

theorem smarts_part_emptyTag (i : Nat) (t : String)
    (h : containsSubL t.data ['|'] = false) :
    smarts_part i (t ++ "|") = some (if i = 0 then add_ring_label t else t) := by
  unfold smarts_part
  rw [pySplitBar_eq (t ++ "|") t "" (data_append_bar t) h]
  simp

theorem smarts_part_code (i : Nat) (t code sub : String)
    (h : containsSubL t.data ['|'] = false)
    (hcode : dictGet SUBSTITUENT_CATALOG code = some sub)
    (hH : code ≠ "H") (hstar : code ≠ "*") (hempty : code ≠ "") :
    smarts_part i (t ++ "|" ++ code) =
      some (if i = 0 then add_ring_label (pyReplace t "(*)" "" ++ "(" ++ sub ++ ")")
            else pyReplace t "(*)" "" ++ "(" ++ sub ++ ")") := by
  unfold smarts_part
  rw [pySplitBar_eq (t ++ "|" ++ code) t code (data_append_tag t code) h]
  simp [hempty, hH, hstar, hcode]

/-- Counterexample for the original claim C2: on the `'a'`-anchored
skeleton `(CarbonMarker, NitrogenPlain, CarbonMarker, NitrogenPlain)`,
`build_smarts` short-circuits to the generic ring constant and does not
produce the skeleton-specific string the specification expects. -/
theorem claim_C2_counterexample :
    build_smarts ["a", C_STAR, N_NOSTAR, C_STAR, N_NOSTAR] ≠
      some "[a:1]1:[#6](*):[#7+0]:[#6](*):[#7+0]:1" ∧
    build_smarts ["a", C_STAR, N_NOSTAR, C_STAR, N_NOSTAR] = some L0_SMARTS := by
  constructor
  · decide
  · rfl

/-- Claim C2 (amended): layer-2 rendering — `build_smarts` applied to
any skeleton prefixed with the generic anchor `'a'` — always returns the
fixed generic ring constant `"[a:1]1:a:a:a:a:1"` (`L0_SMARTS`), because
the renderer returns early whenever position 0 is the anchor token. -/
theorem claim_C2 (skel : List String) :
    build_smarts ("a" :: skel) = some L0_SMARTS := by
  unfold build_smarts
  simp

/-- Counterexample for the original claim C3: at a position carrying the
open-wildcard tag (`"[#6](*)|*"`), the renderer strips the open-valence
marker instead of keeping the token text unchanged — the rendered atom
is `"[#6]"` and no longer contains `"(*)"`. -/
theorem claim_C3_counterexample :
    smarts_part 1 "[#6](*)|*" = some "[#6]" ∧
    pyContains "[#6]" "(*)" = false := by
  constructor
  · decide
  · decide

/-- Claim C3 (amended): at every position whose tag is the open-wildcard
`'*'`, the renderer does not keep the token text unchanged: it removes
the open-valence marker `"(*)"` from the token (appending nothing), so
for the two marker-bearing vocabulary tokens the rendered atom no longer
contains the marker. -/
theorem claim_C3 :
    (∀ (i : Nat) (t : String), containsSubL t.data ['|'] = false →
      smarts_part i (t ++ "|*") =
        some (if i = 0 then add_ring_label (pyReplace t "(*)" "")
              else pyReplace t "(*)" "")) ∧
    pyContains (pyReplace C_STAR "(*)" "") "(*)" = false ∧
    pyContains (pyReplace N_STAR "(*)" "") "(*)" = false := by
  refine ⟨smarts_part_star, by decide, by decide⟩

/-- Witness for C3 at the concrete marker-bearing carbon token in a
non-anchor position. -/
theorem claim_C3_witness :
    smarts_part 1 (C_STAR ++ "|*") =
      some (if 1 = 0 then add_ring_label (pyReplace C_STAR "(*)" "")
            else pyReplace C_STAR "(*)" "") :=
  claim_C3.1 1 C_STAR (by decide)

/-! ### The generation pipeline `generate_hierarchical_library` -/

/-- Python's `itertools.product(choices, repeat=n)`: all length-`n` pick lists in
Python's order (first coordinate outermost, rightmost varying fastest). -/
def pyProduct (choices : List α) : Nat → List (List α)
  | 0 => [[]]
  | n + 1 => choices.bind fun c => (pyProduct choices n).map (c :: ·)

/-- Python `dict` insertion: an existing key keeps its position (and its
originally inserted key object) and only the value is overwritten; a new
key is appended at the end, preserving insertion order. -/
def dictUpsert [DecidableEq κ] : List (κ × β) → κ → β → List (κ × β)
  | [], k, v => [(k, v)]
  | (k', v') :: rest, k, v =>
    if k' = k then (k', v) :: rest else (k', v') :: dictUpsert rest k v

/-- A Python dict comprehension over a pair list (later pairs overwrite
the value at an existing key, key order is first-occurrence order). -/
def dictOfPairs [DecidableEq κ] (l : List (κ × β)) : List (κ × β) :=
  l.foldl (fun d kv => dictUpsert d kv.1 kv.2) []

/-- Python's `dict.values()` in insertion order. -/
def dictValues (d : List (κ × β)) : List β := d.map Prod.snd

/-- Assoc-list read, modelling `x in dict` / `dict[x]` pairs. -/
def alistGet [DecidableEq κ] : List (κ × β) → κ → Option β
  | [], _ => none
  | (k', v) :: rest, k => if k' = k then some v else alistGet rest k

/-- The list `choices = [C_STAR, N_NOSTAR]` of the skeleton stage. -/
def skeleton_choices : List String := [C_STAR, N_NOSTAR]

/-- Layer 1: the retained skeletons — the 16 candidate 4-tuples over the
two-symbol alphabet, filtered to at most 2 nitrogen-like symbols, then
deduplicated through a dict keyed by `canonical_reflect_tuple`. -/
def layer1_skeletons : List (List String) :=
  dictValues (dictOfPairs
    (((pyProduct skeleton_choices 4).filter fun s =>
        decide (s.count N_NOSTAR ≤ 2)).map
      fun s => (canonical_reflect_tuple s, s)))

/-- The four center tokens. -/
def centers : List String := [C_STAR, N_STAR, O_ATOM, S_ATOM]

/-- Layer 2: every retained skeleton prefixed with every center token. -/
def layer2_cores : List (List String × List String) :=
  layer1_skeletons.bind fun skel => centers.map fun center => (skel, center :: skel)

/-- The list `free_pos`: indices of the core positions whose token still carries
the open-valence marker `"(*)"`. -/
def free_pos (core : List String) : List Nat :=
  (core.enum.filter fun it => pyContains it.2 "(*)").map Prod.fst

/-- Python's `itertools.combinations(l, k)` in Python's order. -/
def combosL : Nat → List α → List (List α)
  | 0, _ => [[]]
  | _ + 1, [] => []
  | k + 1, x :: xs => ((combosL k xs).map (x :: ·)) ++ combosL (k + 1) xs

/-- The mask built for one index subset: chosen positions are tagged
`|*`, remaining marker-bearing positions `|H`, all others get an empty
tag `|`. -/
def mask_of (core : List String) (indices : List Nat) : List String :=
  core.enum.map fun it =>
    if decide (it.1 ∈ indices) then it.2 ++ "|*"
    else if pyContains it.2 "(*)" then it.2 ++ "|H"
    else it.2 ++ "|"

/-- Layer 3 before deduplication: each `(skeleton, core, mask)` triple
for every core and every size-2 or size-3 subset of its free positions. -/
def layer3_masks_h : List (List String × List String × List String) :=
  layer2_cores.bind fun sc =>
    ([2, 3] : List Nat).bind fun k =>
      if (free_pos sc.2).length < k then []
      else (combosL k (free_pos sc.2)).map fun indices =>
        (sc.1, sc.2, mask_of sc.2 indices)

/-- The dict `unique_masks`: the triples deduplicated through a dict keyed by the
dihedral canonical form of the mask. -/
def unique_masks :
    List (Option (List String) × (List String × List String × List String)) :=
  dictOfPairs (layer3_masks_h.map fun scm => (canonical_necklace scm.2.2, scm))

/-- The list `star_pos`: indices of the mask positions tagged `|*`. -/
def star_pos (mask : List String) : List Nat :=
  (mask.enum.filter fun it => pyEndsWith it.2 "|*").map Prod.fst

/-- Assign one substituent code per open position: `final_pat[pos] =
mask[pos].split('|')[0] + '|' + label`, starting from a copy of the
mask. -/
def assign_labels (mask : List String) (spos : List Nat) (labels : List String) :
    List String :=
  (spos.zip labels).foldl
    (fun fp pl => fp.set pl.1 ((pySplitBar (mask.getD pl.1 "")).1 ++ "|" ++ pl.2))
    mask

/-- One entry of `final_hierarchy`: the Python 4-tuple
`(skeleton_pat, core_pat, mask_pat, final_pat)`. -/
structure HierItem where
  skeleton : List String
  core : List String
  mask : List String
  final : List String
deriving DecidableEq

/-- Layer 4: for every unique mask, every assignment of catalog codes to
its open positions. -/
def final_hierarchy : List HierItem :=
  (dictValues unique_masks).bind fun scm =>
    (pyProduct APPLICABLE_SUBSTITUENTS (star_pos scm.2.2).length).map fun labels =>
      ⟨scm.1, scm.2.1, scm.2.2, assign_labels scm.2.2 (star_pos scm.2.2) labels⟩

/-- One `parent_smarts_cache` entry: the layer-1..4 strings shared by
all rows of one `(skeleton, core, mask)` triple. -/
structure ParentSmarts where
  layer1_smarts : String
  layer2_smarts : String
  layer3_smarts : String
  layer4_smarts : String
deriving DecidableEq

/-- One row of the final table: five rendered pattern strings. -/
structure SmartsRow where
  layer1_smarts : String
  layer2_smarts : String
  layer3_smarts : String
  layer4_smarts : String
  layer5_smarts : String
deriving DecidableEq

/-- The cached ancestor bundle computed for a cache miss (layer 1 is the
literal constant; layers 2–4 are rendered; `none` propagates a rendering
`KeyError`). -/
def parent_bundle (skel core mask : List String) : Option ParentSmarts :=
  (build_smarts ("a" :: skel)).bind fun l2 =>
    (build_smarts core).bind fun l3 =>
      (build_smarts mask).map fun l4 =>
        ⟨L0_SMARTS, l2, l3, l4⟩

/-- The row assembled from the cached parent bundle for the mask plus the freshly rendered layer-5 string. -/
def rowOf (pb : ParentSmarts) (l5 : String) : SmartsRow :=
  ⟨pb.layer1_smarts, pb.layer2_smarts, pb.layer3_smarts, pb.layer4_smarts, l5⟩

/-- The mutable state of the final assembly loop: the
`parent_smarts_cache` dict and the `final_data` dict, both in insertion
order. -/
abbrev BuildState :=
  List (List String × ParentSmarts) × List (Option (List String) × SmartsRow)

/-- One iteration of the assembly loop: skip when the canonical key is
already present, otherwise read or fill the parent cache and append the
new row. -/
def build_step (st : BuildState) (item : HierItem) : Option BuildState :=
  let canonKey := canonical_necklace item.final
  if canonKey ∈ st.2.map Prod.fst then some st
  else
    match alistGet st.1 item.mask with
    | some pb =>
      (build_smarts item.final).map fun l5 =>
        (st.1, st.2 ++ [(canonKey, rowOf pb l5)])
    | none =>
      (parent_bundle item.skeleton item.core item.mask).bind fun pb =>
        (build_smarts item.final).map fun l5 =>
          (st.1 ++ [(item.mask, pb)], st.2 ++ [(canonKey, rowOf pb l5)])

/-- The assembly loop over the whole `final_hierarchy`. -/
def final_data : Option BuildState := final_hierarchy.foldlM build_step ([], [])

/-- The five strings of a row, in column order `layer1..layer5`. -/
def rowKey (r : SmartsRow) : List String :=
  [r.layer1_smarts, r.layer2_smarts, r.layer3_smarts, r.layer4_smarts, r.layer5_smarts]

/-- The row order used by `df.sort_values(by=list(df.columns))`:
lexicographic across the columns, left to right. -/
def rowLe (a b : SmartsRow) : Bool := !(seqLt (rowKey b) (rowKey a))

/-- The full pipeline: run the assembly loop, take the rows in insertion
order (the dict values; `reset_index(drop=True)` discards the keys) and
sort them lexicographically across all columns. -/
def generate_hierarchical_library : Option (List SmartsRow) :=
  final_data.map fun st => (st.2.map Prod.snd).mergeSort rowLe

set_option maxRecDepth 4000

theorem zero_mem_free_pos (c : String) (rest : List String) :
    0 ∈ free_pos (c :: rest) ↔ pyContains c "(*)" = true := by
  unfold free_pos
  rw [List.enum_cons]
  constructor
  · intro h
    rw [List.mem_map] at h
    obtain ⟨⟨i, t⟩, hmem, hfst⟩ := h
    rw [List.mem_filter] at hmem
    obtain ⟨hmem, hp⟩ := hmem
    rcases List.mem_cons.mp hmem with heq | henum
    · rw [Prod.mk.injEq] at heq
      rw [← heq.2]
      exact hp
    · have := (List.mem_enumFrom henum).1
      simp only at hfst
      omega
  · intro h
    rw [List.mem_map]
    refine ⟨(0, c), ?_, rfl⟩
    rw [List.mem_filter]
    exact ⟨List.mem_cons_self _ _, h⟩

/-- Counterexample for the original claim C4: the Core built from the
all-carbon retained Skeleton and the oxygen center `"[#8]"` is a real
Core of the pipeline, yet its marker-bearing position set does not
contain position 0, because the oxygen token carries no `"(*)"`. -/
theorem claim_C4_counterexample :
    ([C_STAR, C_STAR, C_STAR, C_STAR],
      [O_ATOM, C_STAR, C_STAR, C_STAR, C_STAR]) ∈ layer2_cores ∧
    ¬ (0 ∈ free_pos [O_ATOM, C_STAR, C_STAR, C_STAR, C_STAR]) := by
  constructor
  · decide
  · decide

/-- Claim C4 (amended): for every Core of the pipeline, the
marker-bearing position set contains position 0 exactly when the chosen
center token itself carries the open-valence marker — that is, for the
carbon and starred-nitrogen centers, but not for the oxygen and sulfur
centers. -/
theorem claim_C4 (sc : List String × List String) (h : sc ∈ layer2_cores) :
    ∃ center skel, center ∈ centers ∧ skel ∈ layer1_skeletons ∧
      sc = (skel, center :: skel) ∧
      (0 ∈ free_pos (center :: skel) ↔ (center = C_STAR ∨ center = N_STAR)) := by
  unfold layer2_cores at h
  rw [List.mem_bind] at h
  obtain ⟨skel, hskel, hmem⟩ := h
  rw [List.mem_map] at hmem
  obtain ⟨center, hcenter, heq⟩ := hmem
  refine ⟨center, skel, hcenter, hskel, heq.symm, ?_⟩
  rw [zero_mem_free_pos]
  unfold centers at hcenter
  simp only [List.mem_cons, List.not_mem_nil, or_false] at hcenter
  rcases hcenter with rfl | rfl | rfl | rfl
  · simp only [eq_self_iff_true, true_or, iff_true]
    decide
  · constructor
    · intro _
      right
      rfl
    · intro _
      decide
  · constructor
    · intro hcon
      exact absurd hcon (by decide)
    · intro hcon
      rcases hcon with hcon | hcon <;> exact absurd hcon (by decide)
  · constructor
    · intro hcon
      exact absurd hcon (by decide)
    · intro hcon
      rcases hcon with hcon | hcon <;> exact absurd hcon (by decide)

/-- Witness for C4 at the concrete oxygen-centered all-carbon core. -/
theorem claim_C4_witness :
    ∃ center skel, center ∈ centers ∧ skel ∈ layer1_skeletons ∧
      ([C_STAR, C_STAR, C_STAR, C_STAR],
        [O_ATOM, C_STAR, C_STAR, C_STAR, C_STAR]) = (skel, center :: skel) ∧
      (0 ∈ free_pos (center :: skel) ↔ (center = C_STAR ∨ center = N_STAR)) :=
  claim_C4 ([C_STAR, C_STAR, C_STAR, C_STAR],
    [O_ATOM, C_STAR, C_STAR, C_STAR, C_STAR]) (by decide)

/-! ### Generic facts about the Python-dict model -/

theorem dictUpsert_mem [DecidableEq κ] (d : List (κ × β)) (k : κ) (v : β) :
    ∀ kv ∈ dictUpsert d k v, kv ∈ d ∨ kv = (k, v) := by
  induction d with
  | nil =>
    intro kv hkv
    simp only [dictUpsert, List.mem_singleton] at hkv
    exact Or.inr hkv
  | cons hd rest ih =>
    intro kv hkv
    obtain ⟨k', v'⟩ := hd
    simp only [dictUpsert] at hkv
    by_cases hk : k' = k
    · rw [if_pos hk] at hkv
      rcases List.mem_cons.mp hkv with rfl | h
      · subst hk
        exact Or.inr rfl
      · exact Or.inl (List.mem_cons.mpr (Or.inr h))
    · rw [if_neg hk] at hkv
      rcases List.mem_cons.mp hkv with rfl | h
      · exact Or.inl (List.mem_cons_self _ _)
      · rcases ih kv h with h' | h'
        · exact Or.inl (List.mem_cons.mpr (Or.inr h'))
        · exact Or.inr h'

theorem dictUpsert_keys [DecidableEq κ] (d : List (κ × β)) (k : κ) (v : β) :
    (dictUpsert d k v).map Prod.fst =
      if k ∈ d.map Prod.fst then d.map Prod.fst else d.map Prod.fst ++ [k] := by
  induction d with
  | nil => simp [dictUpsert]
  | cons hd rest ih =>
    obtain ⟨k', v'⟩ := hd
    simp only [dictUpsert]
    by_cases hk : k' = k
    · subst hk
      simp [List.mem_cons]
    · rw [if_neg hk]
      have hk' : ¬ (k = k') := fun hcon => hk hcon.symm
      simp only [List.map_cons, List.mem_cons, ih]
      by_cases hmem : k ∈ rest.map Prod.fst
      · simp [hmem, hk']
      · simp [hmem, hk']

theorem dictUpsert_nodupKeys [DecidableEq κ] (d : List (κ × β)) (k : κ) (v : β)
    (h : (d.map Prod.fst).Nodup) : ((dictUpsert d k v).map Prod.fst).Nodup := by
  rw [dictUpsert_keys]
  by_cases hmem : k ∈ d.map Prod.fst
  · rw [if_pos hmem]
    exact h
  · rw [if_neg hmem]
    rw [List.nodup_append]
    refine ⟨h, List.nodup_singleton k, ?_⟩
    intro a ha hb
    rw [List.mem_singleton] at hb
    subst hb
    exact hmem ha

theorem dictFold_mem [DecidableEq κ] (l : List (κ × β)) :
    ∀ (d : List (κ × β)) (kv : κ × β),
      kv ∈ l.foldl (fun d kv => dictUpsert d kv.1 kv.2) d → kv ∈ d ∨ kv ∈ l := by
  induction l with
  | nil =>
    intro d kv h
    exact Or.inl h
  | cons a l ih =>
    intro d kv h
    simp only [List.foldl_cons] at h
    rcases ih (dictUpsert d a.1 a.2) kv h with h' | h'
    · rcases dictUpsert_mem d a.1 a.2 kv h' with h'' | h''
      · exact Or.inl h''
      · right
        rw [h'']
        exact List.mem_cons_self _ _
    · exact Or.inr (List.mem_cons.mpr (Or.inr h'))

theorem dictOfPairs_mem [DecidableEq κ] (l : List (κ × β)) :
    ∀ kv ∈ dictOfPairs l, kv ∈ l := by
  intro kv h
  rcases dictFold_mem l [] kv h with h' | h'
  · exact absurd h' (List.not_mem_nil kv)
  · exact h'

theorem dictFold_nodupKeys [DecidableEq κ] (l : List (κ × β)) :
    ∀ d : List (κ × β), (d.map Prod.fst).Nodup →
      ((l.foldl (fun d kv => dictUpsert d kv.1 kv.2) d).map Prod.fst).Nodup := by
  induction l with
  | nil => intro d h; exact h
  | cons a l ih =>
    intro d h
    simp only [List.foldl_cons]
    exact ih (dictUpsert d a.1 a.2) (dictUpsert_nodupKeys d a.1 a.2 h)

theorem dictOfPairs_nodupKeys [DecidableEq κ] (l : List (κ × β)) :
    ((dictOfPairs l).map Prod.fst).Nodup :=
  dictFold_nodupKeys l [] (by simp)

theorem alist_nodup_val_eq [DecidableEq κ] {d : List (κ × β)} {k : κ} {v₁ v₂ : β}
    (h : (d.map Prod.fst).Nodup) (h1 : (k, v₁) ∈ d) (h2 : (k, v₂) ∈ d) :
    v₁ = v₂ := by
  induction d with
  | nil => exact absurd h1 (List.not_mem_nil _)
  | cons a rest ih =>
    obtain ⟨ka, va⟩ := a
    have hmap : (ka :: rest.map Prod.fst).Nodup := by simpa using h
    have hka : ka ∉ rest.map Prod.fst := (List.nodup_cons.mp hmap).1
    have hrest : (rest.map Prod.fst).Nodup := (List.nodup_cons.mp hmap).2
    rcases List.mem_cons.mp h1 with heq1 | h1'
    · rcases List.mem_cons.mp h2 with heq2 | h2'
      · injection heq1 with hk1 hv1
        injection heq2 with hk2 hv2
        rw [hv1, hv2]
      · injection heq1 with hk1 hv1
        subst hk1
        exact absurd (List.mem_map.mpr ⟨(k, v₂), h2', rfl⟩) hka
    · rcases List.mem_cons.mp h2 with heq2 | h2'
      · injection heq2 with hk2 hv2
        subst hk2
        exact absurd (List.mem_map.mpr ⟨(k, v₁), h1', rfl⟩) hka
      · exact ih hrest h1' h2'

theorem dictValues_mem {d : List (κ × β)} {v : β} :
    v ∈ dictValues d ↔ ∃ k, (k, v) ∈ d := by
  unfold dictValues
  rw [List.mem_map]
  constructor
  · rintro ⟨⟨k, v'⟩, hmem, rfl⟩
    exact ⟨k, hmem⟩
  · rintro ⟨k, hmem⟩
    exact ⟨(k, v), hmem, rfl⟩

theorem mem_pyProduct (choices : List α) (n : Nat) (s : List α) :
    s ∈ pyProduct choices n ↔ s.length = n ∧ ∀ x ∈ s, x ∈ choices := by
  induction n generalizing s with
  | zero =>
    simp only [pyProduct, List.mem_singleton]
    constructor
    · rintro rfl
      exact ⟨rfl, by simp⟩
    · rintro ⟨hlen, _⟩
      exact List.eq_nil_of_length_eq_zero hlen
  | succ n ih =>
    simp only [pyProduct, List.mem_bind, List.mem_map]
    constructor
    · rintro ⟨c, hc, t, ht, rfl⟩
      obtain ⟨hlen, hall⟩ := (ih t).mp ht
      refine ⟨by simp [hlen], ?_⟩
      intro x hx
      rcases List.mem_cons.mp hx with rfl | hx'
      · exact hc
      · exact hall x hx'
    · rintro ⟨hlen, hall⟩
      cases s with
      | nil => simp at hlen
      | cons c t =>
        refine ⟨c, hall c (List.mem_cons_self c t), t, ?_, rfl⟩
        refine (ih t).mpr ⟨by simpa using hlen, ?_⟩
        intro x hx
        exact hall x (List.mem_cons.mpr (Or.inr hx))

/-! ### Well-formedness of the generated patterns, and renderer success -/

/-- The five atom tokens that can occupy a ring position of a Core. -/
def tokenVocab : List String := [C_STAR, N_STAR, N_NOSTAR, O_ATOM, S_ATOM]

/-- A string that is one of the vocabulary tokens. -/
abbrev goodToken (t : String) : Prop := t ∈ tokenVocab

theorem goodToken_noBar {t : String} (h : goodToken t) :
    containsSubL t.data ['|'] = false := by
  have hall : ∀ x ∈ tokenVocab, containsSubL x.data ['|'] = false := by decide
  exact hall t h

/-- A position string the renderer can always process: either a bare
vocabulary token, or a vocabulary token tagged `|*`, `|H`, `|`, or with
a catalog substituent code. -/
def PartWf (p : String) : Prop :=
  goodToken p ∨
  ∃ t, goodToken t ∧
    (p = t ++ "|*" ∨ p = t ++ "|H" ∨ p = t ++ "|" ∨
      ∃ code, code ∈ APPLICABLE_SUBSTITUENTS ∧ p = t ++ "|" ++ code)

theorem catalog_codes_ok : ∀ code ∈ APPLICABLE_SUBSTITUENTS,
    code ≠ "H" ∧ code ≠ "*" ∧ code ≠ "" ∧
      ∃ sub, dictGet SUBSTITUENT_CATALOG code = some sub := by
  have hb : ∀ code ∈ APPLICABLE_SUBSTITUENTS,
      code ≠ "H" ∧ code ≠ "*" ∧ code ≠ "" ∧
        (dictGet SUBSTITUENT_CATALOG code).isSome = true := by decide
  intro code hcode
  obtain ⟨h1, h2, h3, h4⟩ := hb code hcode
  exact ⟨h1, h2, h3, Option.isSome_iff_exists.mp h4⟩

theorem smarts_part_isSome (i : Nat) (p : String) (h : PartWf p) :
    ∃ r, smarts_part i p = some r := by
  rcases h with h | ⟨t, ht, hp | hp | hp | ⟨code, hcode, hp⟩⟩
  · exact ⟨_, smarts_part_noTag i p (goodToken_noBar h)⟩
  · rw [hp]
    exact ⟨_, smarts_part_star i t (goodToken_noBar ht)⟩
  · rw [hp]
    exact ⟨_, smarts_part_H i t (goodToken_noBar ht)⟩
  · rw [hp]
    exact ⟨_, smarts_part_emptyTag i t (goodToken_noBar ht)⟩
  · obtain ⟨hH, hstar, hempty, sub, hsub⟩ := catalog_codes_ok code hcode
    rw [hp]
    exact ⟨_, smarts_part_code i t code sub (goodToken_noBar ht) hsub hH hstar hempty⟩

theorem smarts_parts_isSome (pattern : List String) (h : ∀ p ∈ pattern, PartWf p) :
    ∀ i, ∃ parts, smarts_parts i pattern = some parts ∧
      parts.length = pattern.length := by
  induction pattern with
  | nil =>
    intro i
    exact ⟨[], rfl, rfl⟩
  | cons p rest ih =>
    intro i
    obtain ⟨r, hr⟩ := smarts_part_isSome i p (h p (List.mem_cons_self p rest))
    obtain ⟨parts, hparts, hlen⟩ :=
      ih (fun q hq => h q (List.mem_cons.mpr (Or.inr hq))) (i + 1)
    refine ⟨r :: parts, ?_, by simp [hlen]⟩
    simp [smarts_parts, hr, hparts]

theorem build_smarts_isSome (pattern : List String)
    (h : ∀ p ∈ pattern, PartWf p) : ∃ r, build_smarts pattern = some r := by
  cases pattern with
  | nil => exact ⟨"", rfl⟩
  | cons p0 rest =>
    simp only [build_smarts]
    by_cases ha : p0 = "a"
    · rw [if_pos ha]
      exact ⟨L0_SMARTS, rfl⟩
    · rw [if_neg ha]
      obtain ⟨parts, hparts, hlen⟩ := smarts_parts_isSome (p0 :: rest) h 0
      rw [hparts]
      cases parts with
      | nil => simp at hlen
      | cons q0 qrest => exact ⟨_, rfl⟩

theorem build_smarts_anchor (skel : List String) :
    build_smarts ("a" :: skel) = some L0_SMARTS := by
  unfold build_smarts
  simp

theorem snd_mem_of_mem_enum {l : List α} {i : Nat} {x : α}
    (h : (i, x) ∈ l.enum) : x ∈ l := by
  obtain ⟨hi, hx⟩ := List.mem_enum h
  rw [hx]
  exact List.getElem_mem hi

theorem layer1_skeletons_wf : ∀ s ∈ layer1_skeletons, ∀ t ∈ s, t ∈ skeleton_choices := by
  intro s hs
  unfold layer1_skeletons at hs
  obtain ⟨k, hk⟩ := dictValues_mem.mp hs
  have hpair := dictOfPairs_mem _ _ hk
  rw [List.mem_map] at hpair
  obtain ⟨s', hs', heq⟩ := hpair
  rw [List.mem_filter] at hs'
  have hs'' := (mem_pyProduct _ _ _).mp hs'.1
  injection heq with h1 h2
  intro t ht
  rw [← h2] at ht
  exact hs''.2 t ht

theorem layer2_cores_shape : ∀ sc ∈ layer2_cores, ∃ center skel,
    center ∈ centers ∧ skel ∈ layer1_skeletons ∧ sc = (skel, center :: skel) := by
  intro sc h
  unfold layer2_cores at h
  rw [List.mem_bind] at h
  obtain ⟨skel, hskel, hmem⟩ := h
  rw [List.mem_map] at hmem
  obtain ⟨center, hcenter, heq⟩ := hmem
  exact ⟨center, skel, hcenter, hskel, heq.symm⟩

theorem layer2_core_tokens : ∀ sc ∈ layer2_cores, ∀ t ∈ sc.2, goodToken t := by
  intro sc h
  obtain ⟨center, skel, hc, hs, heq⟩ := layer2_cores_shape sc h
  rw [heq]
  intro t ht
  rcases List.mem_cons.mp ht with rfl | ht'
  · have hall : ∀ c ∈ centers, goodToken c := by decide
    exact hall t hc
  · have hskel := layer1_skeletons_wf skel hs t ht'
    have hall : ∀ x ∈ skeleton_choices, goodToken x := by decide
    exact hall t hskel

/-- A mask position string: a vocabulary token tagged `|*`, `|H` or `|`. -/
def MaskPartWf (p : String) : Prop :=
  ∃ t, goodToken t ∧ (p = t ++ "|*" ∨ p = t ++ "|H" ∨ p = t ++ "|")

theorem mask_of_wf (core : List String) (indices : List Nat)
    (h : ∀ t ∈ core, goodToken t) : ∀ p ∈ mask_of core indices, MaskPartWf p := by
  intro p hp
  unfold mask_of at hp
  rw [List.mem_map] at hp
  obtain ⟨⟨i, t⟩, hmem, heq⟩ := hp
  have ht : t ∈ core := snd_mem_of_mem_enum hmem
  refine ⟨t, h t ht, ?_⟩
  rw [← heq]
  by_cases h1 : i ∈ indices
  · left
    simp [h1]
  · by_cases h2 : pyContains t "(*)" = true
    · right
      left
      simp [h1, h2]
    · right
      right
      simp only [decide_eq_true_eq]
      rw [if_neg h1, if_neg (by simpa using h2)]

theorem layer3_masks_wf : ∀ scm ∈ layer3_masks_h,
    (∀ t ∈ scm.2.1, goodToken t) ∧ (∀ p ∈ scm.2.2, MaskPartWf p) := by
  intro scm h
  unfold layer3_masks_h at h
  rw [List.mem_bind] at h
  obtain ⟨sc, hsc, h⟩ := h
  rw [List.mem_bind] at h
  obtain ⟨k, hk, h⟩ := h
  by_cases hlt : (free_pos sc.2).length < k
  · rw [if_pos hlt] at h
    exact absurd h (List.not_mem_nil _)
  · rw [if_neg hlt] at h
    rw [List.mem_map] at h
    obtain ⟨indices, hind, heq⟩ := h
    have hcore := layer2_core_tokens sc hsc
    rw [← heq]
    exact ⟨hcore, mask_of_wf sc.2 indices hcore⟩

theorem unique_masks_mem : ∀ kv ∈ unique_masks,
    kv.2 ∈ layer3_masks_h ∧ kv.1 = canonical_necklace kv.2.2.2 := by
  intro kv h
  have hmem := dictOfPairs_mem _ kv h
  rw [List.mem_map] at hmem
  obtain ⟨scm, hscm, heq⟩ := hmem
  rw [← heq]
  exact ⟨hscm, rfl⟩

theorem star_pos_lt (mask : List String) : ∀ j ∈ star_pos mask, j < mask.length := by
  intro j hj
  unfold star_pos at hj
  rw [List.mem_map] at hj
  obtain ⟨⟨i, t⟩, hmem, heq⟩ := hj
  rw [List.mem_filter] at hmem
  have hi := (List.mem_enum hmem.1).1
  simp only at heq
  rw [← heq]
  exact hi

theorem maskPart_token {p : String} (h : MaskPartWf p) :
    ∃ t, goodToken t ∧ (pySplitBar p).1 = t := by
  obtain ⟨t, ht, hp | hp | hp⟩ := h
  · refine ⟨t, ht, ?_⟩
    rw [hp, pySplitBar_eq (t ++ "|*") t "*" (data_append_star t) (goodToken_noBar ht)]
  · refine ⟨t, ht, ?_⟩
    rw [hp, pySplitBar_eq (t ++ "|H") t "H" (data_append_H t) (goodToken_noBar ht)]
  · refine ⟨t, ht, ?_⟩
    rw [hp, pySplitBar_eq (t ++ "|") t "" (data_append_bar t) (goodToken_noBar ht)]

theorem maskPartWf_partWf {p : String} (h : MaskPartWf p) : PartWf p := by
  obtain ⟨t, ht, hp⟩ := h
  exact Or.inr ⟨t, ht, by tauto⟩

theorem assign_labels_wf (mask : List String) (spos : List Nat) (labels : List String)
    (hm : ∀ p ∈ mask, MaskPartWf p)
    (hl : ∀ c ∈ labels, c ∈ APPLICABLE_SUBSTITUENTS)
    (hpos : ∀ j ∈ spos, j < mask.length) :
    ∀ p ∈ assign_labels mask spos labels, PartWf p := by
  unfold assign_labels
  have main : ∀ (zl : List (Nat × String)) (fp : List String),
      (∀ pl ∈ zl, pl.1 ∈ spos ∧ pl.2 ∈ labels) →
      (∀ p ∈ fp, PartWf p) →
      ∀ p ∈ zl.foldl
        (fun fp pl => fp.set pl.1 ((pySplitBar (mask.getD pl.1 "")).1 ++ "|" ++ pl.2))
        fp, PartWf p := by
    intro zl
    induction zl with
    | nil =>
      intro fp _ hfp p hp
      exact hfp p hp
    | cons pl rest ih =>
      intro fp hz hfp p hp
      simp only [List.foldl_cons] at hp
      refine ih _ (fun q hq => hz q (List.mem_cons.mpr (Or.inr hq))) ?_ p hp
      intro q hq
      rcases List.mem_or_eq_of_mem_set hq with hq' | rfl
      · exact hfp q hq'
      · have hj : pl.1 ∈ spos := (hz pl (List.mem_cons_self pl rest)).1
        have hc : pl.2 ∈ labels := (hz pl (List.mem_cons_self pl rest)).2
        have hjlt : pl.1 < mask.length := hpos _ hj
        have hmem : mask.getD pl.1 "" ∈ mask := by
          rw [List.getD_eq_getElem mask "" hjlt]
          exact List.getElem_mem hjlt
        obtain ⟨t, ht, hsplit⟩ := maskPart_token (hm _ hmem)
        rw [hsplit]
        exact Or.inr ⟨t, ht, Or.inr (Or.inr (Or.inr ⟨pl.2, hl _ hc, rfl⟩))⟩
  refine main (spos.zip labels) mask ?_ ?_
  · intro pl hpl
    exact ⟨(List.mem_zip hpl).1, (List.mem_zip hpl).2⟩
  · intro p hp
    exact maskPartWf_partWf (hm p hp)

/-- The shape an entry of `final_hierarchy` always has. -/
def ItemWf (item : HierItem) : Prop :=
  (∀ t ∈ item.core, goodToken t) ∧ (∀ p ∈ item.mask, MaskPartWf p) ∧
  (∀ p ∈ item.final, PartWf p)

theorem final_hierarchy_shape : ∀ item ∈ final_hierarchy,
    ∃ scm ∈ dictValues unique_masks,
      item.skeleton = scm.1 ∧ item.core = scm.2.1 ∧ item.mask = scm.2.2 := by
  intro item h
  unfold final_hierarchy at h
  rw [List.mem_bind] at h
  obtain ⟨scm, hscm, h⟩ := h
  rw [List.mem_map] at h
  obtain ⟨labels, hlabels, heq⟩ := h
  rw [← heq]
  exact ⟨scm, hscm, rfl, rfl, rfl⟩

theorem final_hierarchy_wf : ∀ item ∈ final_hierarchy, ItemWf item := by
  intro item h
  unfold final_hierarchy at h
  rw [List.mem_bind] at h
  obtain ⟨scm, hscm, h⟩ := h
  rw [List.mem_map] at h
  obtain ⟨labels, hlabels, heq⟩ := h
  obtain ⟨k, hk⟩ := dictValues_mem.mp hscm
  obtain ⟨hmem3, hkey⟩ := unique_masks_mem (k, scm) hk
  obtain ⟨hcore, hmask⟩ := layer3_masks_wf scm hmem3
  have hlab : ∀ c ∈ labels, c ∈ APPLICABLE_SUBSTITUENTS :=
    fun c hc => ((mem_pyProduct _ _ _).mp hlabels).2 c hc
  rw [← heq]
  exact ⟨hcore, hmask,
    assign_labels_wf scm.2.2 (star_pos scm.2.2) labels hmask hlab (star_pos_lt _)⟩

theorem unique_masks_mask_det :
    ∀ v1 ∈ dictValues unique_masks, ∀ v2 ∈ dictValues unique_masks,
      v1.2.2 = v2.2.2 → v1 = v2 := by
  intro v1 h1 v2 h2 heq
  obtain ⟨k1, hk1⟩ := dictValues_mem.mp h1
  obtain ⟨k2, hk2⟩ := dictValues_mem.mp h2
  have e1 := (unique_masks_mem _ hk1).2
  have e2 := (unique_masks_mem _ hk2).2
  simp only at e1 e2
  have hkeq : k1 = k2 := by rw [e1, e2, heq]
  subst hkeq
  exact alist_nodup_val_eq (dictOfPairs_nodupKeys _) hk1 hk2

theorem final_hierarchy_mask_det :
    ∀ i1 ∈ final_hierarchy, ∀ i2 ∈ final_hierarchy,
      i1.mask = i2.mask → i1.skeleton = i2.skeleton ∧ i1.core = i2.core := by
  intro i1 h1 i2 h2 heq
  obtain ⟨scm1, hscm1, hs1, hc1, hm1⟩ := final_hierarchy_shape i1 h1
  obtain ⟨scm2, hscm2, hs2, hc2, hm2⟩ := final_hierarchy_shape i2 h2
  have hveq : scm1 = scm2 := by
    refine unique_masks_mask_det scm1 hscm1 scm2 hscm2 ?_
    rw [← hm1, ← hm2, heq]
  subst hveq
  rw [hs1, hs2, hc1, hc2]
  exact ⟨rfl, rfl⟩

/-! ### The assembly fold: success and invariants -/

/-- Independent recomputation of a Row's five strings from its own
`(Skeleton, Core, Mask, FinalPattern)`, with no cache involved. -/
def recompute_row (item : HierItem) : Option SmartsRow :=
  (parent_bundle item.skeleton item.core item.mask).bind fun pb =>
    (build_smarts item.final).map fun l5 => rowOf pb l5

theorem parent_bundle_isSome (item : HierItem) (h : ItemWf item) :
    ∃ pb, parent_bundle item.skeleton item.core item.mask = some pb := by
  obtain ⟨hcore, hmask, hfinal⟩ := h
  obtain ⟨l3, hl3⟩ := build_smarts_isSome item.core fun p hp => Or.inl (hcore p hp)
  obtain ⟨l4, hl4⟩ :=
    build_smarts_isSome item.mask fun p hp => maskPartWf_partWf (hmask p hp)
  refine ⟨⟨L0_SMARTS, L0_SMARTS, l3, l4⟩, ?_⟩
  unfold parent_bundle
  rw [build_smarts_anchor, Option.some_bind, hl3, Option.some_bind, hl4]
  rfl

theorem parent_bundle_layers {s c m : List String} {pb : ParentSmarts}
    (h : parent_bundle s c m = some pb) :
    pb.layer1_smarts = L0_SMARTS ∧ pb.layer2_smarts = L0_SMARTS := by
  unfold parent_bundle at h
  rw [build_smarts_anchor, Option.some_bind] at h
  cases h3 : build_smarts c with
  | none =>
    rw [h3] at h
    simp at h
  | some l3 =>
    rw [h3, Option.some_bind] at h
    cases h4 : build_smarts m with
    | none =>
      rw [h4] at h
      simp at h
    | some l4 =>
      rw [h4, Option.map_some'] at h
      cases Option.some_inj.mp h
      exact ⟨rfl, rfl⟩

theorem alistGet_mem [DecidableEq κ] {d : List (κ × β)} {k : κ} {v : β}
    (h : alistGet d k = some v) : (k, v) ∈ d := by
  induction d with
  | nil => simp [alistGet] at h
  | cons a rest ih =>
    obtain ⟨ka, va⟩ := a
    simp only [alistGet] at h
    by_cases hk : ka = k
    · rw [if_pos hk] at h
      subst hk
      rw [Option.some_inj.mp h]
      exact List.mem_cons_self _ _
    · rw [if_neg hk] at h
      exact List.mem_cons.mpr (Or.inr (ih h))

/-- Every cache entry was computed, for its own mask, from a triple that
occurs in `final_hierarchy`. -/
def CacheOK (cache : List (List String × ParentSmarts)) : Prop :=
  ∀ mp ∈ cache, ∃ item ∈ final_hierarchy, item.mask = mp.1 ∧
    parent_bundle item.skeleton item.core item.mask = some mp.2

/-- Every data entry is keyed by the canonical form of the final pattern
of some `final_hierarchy` item whose own triple independently recomputes
exactly the stored row. -/
def DataOK (data : List (Option (List String) × SmartsRow)) : Prop :=
  ∀ kr ∈ data, ∃ item ∈ final_hierarchy,
    canonical_necklace item.final = kr.1 ∧ recompute_row item = some kr.2

theorem build_fold_master :
    ∀ l : List HierItem, (∀ item ∈ l, item ∈ final_hierarchy) →
    ∀ st : BuildState, CacheOK st.1 → DataOK st.2 → (st.2.map Prod.fst).Nodup →
    ∃ st', List.foldlM build_step st l = some st' ∧
      CacheOK st'.1 ∧ DataOK st'.2 ∧ (st'.2.map Prod.fst).Nodup ∧
      (∀ k ∈ st.2.map Prod.fst, k ∈ st'.2.map Prod.fst) ∧
      (∀ item ∈ l, canonical_necklace item.final ∈ st'.2.map Prod.fst) := by
  intro l
  induction l with
  | nil =>
    intro _ st hC hD hN
    exact ⟨st, rfl, hC, hD, hN, fun k hk => hk,
      fun item hitem => absurd hitem (List.not_mem_nil item)⟩
  | cons a l ih =>
    intro hsub st hC hD hN
    have ha : a ∈ final_hierarchy := hsub a (List.mem_cons_self a l)
    have hwf : ItemWf a := final_hierarchy_wf a ha
    have hsub' : ∀ item ∈ l, item ∈ final_hierarchy :=
      fun i hi => hsub i (List.mem_cons.mpr (Or.inr hi))
    by_cases hk : canonical_necklace a.final ∈ st.2.map Prod.fst
    · have hstep : build_step st a = some st := by
        simp only [build_step]
        rw [if_pos hk]
      obtain ⟨st', hfold, hc', hd', hn', hmono, hcov⟩ := ih hsub' st hC hD hN
      refine ⟨st', ?_, hc', hd', hn', hmono, ?_⟩
      · rw [List.foldlM_cons, hstep]
        exact hfold
      · intro item hitem
        rcases List.mem_cons.mp hitem with rfl | hitem'
        · exact hmono _ hk
        · exact hcov item hitem'
    · obtain ⟨l5, hl5⟩ := build_smarts_isSome a.final hwf.2.2
      cases hcache : alistGet st.1 a.mask with
      | some pb =>
        have hstep : build_step st a =
            some (st.1, st.2 ++ [(canonical_necklace a.final, rowOf pb l5)]) := by
          simp only [build_step]
          rw [if_neg hk, hcache, hl5]
          rfl
        have hpb : parent_bundle a.skeleton a.core a.mask = some pb := by
          obtain ⟨item', hitem', hmaskeq, hpb'⟩ := hC (a.mask, pb) (alistGet_mem hcache)
          simp only at hmaskeq hpb'
          obtain ⟨hskel, hcore⟩ := final_hierarchy_mask_det a ha item' hitem' hmaskeq.symm
          rw [hskel, hcore, ← hmaskeq]
          exact hpb'
        have hC1 : CacheOK st.1 := hC
        have hD1 : DataOK (st.2 ++
            [(canonical_necklace a.final, rowOf pb l5)]) := by
          intro kr hkr
          rcases List.mem_append.mp hkr with hold | hnew
          · exact hD kr hold
          · rw [List.mem_singleton] at hnew
            refine ⟨a, ha, ?_, ?_⟩
            · rw [hnew]
            · rw [hnew]
              unfold recompute_row
              rw [hpb, Option.some_bind, hl5, Option.map_some']
        have hN1 : ((st.2 ++
            [(canonical_necklace a.final, rowOf pb l5)]).map Prod.fst).Nodup := by
          simp only [List.map_append, List.map_cons, List.map_nil]
          rw [List.nodup_append]
          refine ⟨hN, List.nodup_singleton _, ?_⟩
          intro x hx hx'
          rw [List.mem_singleton] at hx'
          subst hx'
          exact hk hx
        obtain ⟨st', hfold, hc', hd', hn', hmono, hcov⟩ :=
          ih hsub' (st.1, st.2 ++ [(canonical_necklace a.final, rowOf pb l5)])
            hC1 hD1 hN1
        refine ⟨st', ?_, hc', hd', hn', ?_, ?_⟩
        · rw [List.foldlM_cons, hstep]
          exact hfold
        · intro k hkk
          refine hmono k ?_
          simp only [List.map_append]
          exact List.mem_append.mpr (Or.inl hkk)
        · intro item hitem
          rcases List.mem_cons.mp hitem with rfl | hitem'
          · refine hmono _ ?_
            simp only [List.map_append, List.map_cons, List.map_nil]
            exact List.mem_append.mpr (Or.inr (List.mem_singleton.mpr rfl))
          · exact hcov item hitem'
      | none =>
        obtain ⟨pb, hpb⟩ := parent_bundle_isSome a hwf
        have hstep : build_step st a = some (st.1 ++ [(a.mask, pb)],
            st.2 ++ [(canonical_necklace a.final, rowOf pb l5)]) := by
          simp only [build_step]
          rw [if_neg hk, hcache, hpb, Option.some_bind, hl5]
          rfl
        have hC1 : CacheOK (st.1 ++ [(a.mask, pb)]) := by
          intro mp hmp
          rcases List.mem_append.mp hmp with hold | hnew
          · exact hC mp hold
          · rw [List.mem_singleton] at hnew
            subst hnew
            exact ⟨a, ha, rfl, hpb⟩
        have hD1 : DataOK (st.2 ++ [(canonical_necklace a.final, rowOf pb l5)]) := by
          intro kr hkr
          rcases List.mem_append.mp hkr with hold | hnew
          · exact hD kr hold
          · rw [List.mem_singleton] at hnew
            refine ⟨a, ha, ?_, ?_⟩
            · rw [hnew]
            · rw [hnew]
              unfold recompute_row
              rw [hpb, Option.some_bind, hl5, Option.map_some']
        have hN1 : ((st.2 ++
            [(canonical_necklace a.final, rowOf pb l5)]).map Prod.fst).Nodup := by
          simp only [List.map_append, List.map_cons, List.map_nil]
          rw [List.nodup_append]
          refine ⟨hN, List.nodup_singleton _, ?_⟩
          intro x hx hx'
          rw [List.mem_singleton] at hx'
          subst hx'
          exact hk hx
        obtain ⟨st', hfold, hc', hd', hn', hmono, hcov⟩ :=
          ih hsub' (st.1 ++ [(a.mask, pb)],
            st.2 ++ [(canonical_necklace a.final, rowOf pb l5)]) hC1 hD1 hN1
        refine ⟨st', ?_, hc', hd', hn', ?_, ?_⟩
        · rw [List.foldlM_cons, hstep]
          exact hfold
        · intro k hkk
          refine hmono k ?_
          simp only [List.map_append]
          exact List.mem_append.mpr (Or.inl hkk)
        · intro item hitem
          rcases List.mem_cons.mp hitem with rfl | hitem'
          · refine hmono _ ?_
            simp only [List.map_append, List.map_cons, List.map_nil]
            exact List.mem_append.mpr (Or.inr (List.mem_singleton.mpr rfl))
          · exact hcov item hitem'

theorem final_data_spec :
    ∃ cache data, final_data = some (cache, data) ∧
      CacheOK cache ∧ DataOK data ∧ (data.map Prod.fst).Nodup ∧
      ∀ item ∈ final_hierarchy,
        canonical_necklace item.final ∈ data.map Prod.fst := by
  obtain ⟨st', hfold, hc, hd, hn, _, hcov⟩ :=
    build_fold_master final_hierarchy (fun i hi => hi) ([], [])
      (fun mp hmp => absurd hmp (List.not_mem_nil mp))
      (fun kr hkr => absurd hkr (List.not_mem_nil kr)) (by simp)
  refine ⟨st'.1, st'.2, ?_, hc, hd, hn, hcov⟩
  unfold final_data
  rw [hfold]

/-- Claim C1: the output table's dict is keyed by pairwise-distinct
canonical keys; each key is `canonical_necklace` of the final pattern of
a generated item, and every generated final pattern's canonical key owns
exactly one entry — one Row per dihedral-symmetry orbit. -/
theorem claim_C1 :
    ∃ cache data, final_data = some (cache, data) ∧
      (data.map Prod.fst).Nodup ∧
      (∀ kr ∈ data, ∃ item ∈ final_hierarchy,
        canonical_necklace item.final = kr.1) ∧
      (∀ item ∈ final_hierarchy,
        canonical_necklace item.final ∈ data.map Prod.fst) := by
  obtain ⟨cache, data, heq, hc, hd, hn, hcov⟩ := final_data_spec
  refine ⟨cache, data, heq, hn, ?_, hcov⟩
  intro kr hkr
  obtain ⟨item, hitem, hkey, _⟩ := hd kr hkr
  exact ⟨item, hitem, hkey⟩

/-- Claim C7: every Row of the table is exactly what the Renderer
recomputes, cache-free, from the Row's own
`(Skeleton, Core, Mask, FinalPattern)`; the mask-keyed memoization never
supplies strings derived from a different triple, because within the
deduplicated `final_hierarchy` a mask determines its skeleton and core. -/
theorem claim_C7 :
    ∃ cache data, final_data = some (cache, data) ∧
      ∀ kr ∈ data, ∃ item ∈ final_hierarchy,
        canonical_necklace item.final = kr.1 ∧
        recompute_row item = some kr.2 := by
  obtain ⟨cache, data, heq, hc, hd, hn, hcov⟩ := final_data_spec
  exact ⟨cache, data, heq, hd⟩

theorem recompute_row_layers {item : HierItem} {row : SmartsRow}
    (h : recompute_row item = some row) :
    row.layer1_smarts = L0_SMARTS ∧ row.layer2_smarts = L0_SMARTS := by
  unfold recompute_row at h
  cases hpb : parent_bundle item.skeleton item.core item.mask with
  | none =>
    rw [hpb] at h
    simp at h
  | some pb =>
    rw [hpb, Option.some_bind] at h
    cases hl5 : build_smarts item.final with
    | none =>
      rw [hl5] at h
      simp at h
    | some l5 =>
      rw [hl5, Option.map_some'] at h
      cases Option.some_inj.mp h
      exact parent_bundle_layers hpb

/-- Claim C10: in every Row of the output table the layer-2 string
equals the layer-1 string and both are the fixed generic ring constant
`"[a:1]1:a:a:a:a:1"`: the layer-2 column never varies. -/
theorem claim_C10 :
    ∃ table, generate_hierarchical_library = some table ∧
      ∀ row ∈ table, row.layer1_smarts = L0_SMARTS ∧
        row.layer2_smarts = L0_SMARTS ∧
        row.layer2_smarts = row.layer1_smarts := by
  obtain ⟨cache, data, heq, hc, hd, hn, hcov⟩ := final_data_spec
  refine ⟨(data.map Prod.snd).mergeSort rowLe, ?_, ?_⟩
  · unfold generate_hierarchical_library
    rw [heq, Option.map_some']
  · intro row hrow
    have hmem : row ∈ data.map Prod.snd :=
      (List.mergeSort_perm (data.map Prod.snd) rowLe).mem_iff.mp hrow
    rw [List.mem_map] at hmem
    obtain ⟨kr, hkr, hsnd⟩ := hmem
    obtain ⟨item, hitem, hkey, hrec⟩ := hd kr hkr
    rw [hsnd] at hrec
    obtain ⟨h1, h2⟩ := recompute_row_layers hrec
    exact ⟨h1, h2, by rw [h1, h2]⟩

theorem rowLe_trans : ∀ a b c : SmartsRow,
    rowLe a b = true → rowLe b c = true → rowLe a c = true := by
  obtain ⟨hirr, htrans, hconn⟩ := seqLt_strict
  intro a b c h1 h2
  simp only [rowLe, Bool.not_eq_true'] at h1 h2 ⊢
  by_contra hcon
  have hca : seqLt (rowKey c) (rowKey a) = true := by
    revert hcon
    cases seqLt (rowKey c) (rowKey a) <;> simp
  cases hab : seqLt (rowKey a) (rowKey b) with
  | true =>
    have := htrans _ _ _ hca hab
    rw [h2] at this
    exact Bool.false_ne_true this
  | false =>
    have hk : rowKey a = rowKey b := hconn _ _ hab h1
    rw [hk] at hca
    rw [h2] at hca
    exact Bool.false_ne_true hca

theorem rowLe_total : ∀ a b : SmartsRow, (rowLe a b || rowLe b a) = true := by
  obtain ⟨hirr, htrans, hconn⟩ := seqLt_strict
  intro a b
  by_contra hcon
  simp only [rowLe, Bool.or_eq_true, Bool.not_eq_true'] at hcon
  push_neg at hcon
  obtain ⟨h1, h2⟩ := hcon
  have h1' : seqLt (rowKey b) (rowKey a) = true := by
    revert h1
    cases seqLt (rowKey b) (rowKey a) <;> simp
  have h2' : seqLt (rowKey a) (rowKey b) = true := by
    revert h2
    cases seqLt (rowKey a) (rowKey b) <;> simp
  have := htrans _ _ _ h1' h2'
  rw [hirr] at this
  exact Bool.false_ne_true this

/-- Claim C9: the pipeline is a pure function (the model is a closed
definition, so any two runs yield the same table); the emitted table is
exactly a permutation of the assembled rows, ordered lexicographically
across the columns layer1..layer5, left to right. -/
theorem claim_C9 :
    ∃ table, generate_hierarchical_library = some table ∧
      List.Pairwise (fun a b => rowLe a b = true) table ∧
      ∃ cache data, final_data = some (cache, data) ∧
        table.Perm (data.map Prod.snd) := by
  obtain ⟨cache, data, heq, hc, hd, hn, hcov⟩ := final_data_spec
  refine ⟨(data.map Prod.snd).mergeSort rowLe, ?_, ?_, cache, data, heq, ?_⟩
  · unfold generate_hierarchical_library
    rw [heq, Option.map_some']
  · exact List.sorted_mergeSort rowLe_trans rowLe_total (data.map Prod.snd)
  · exact List.mergeSort_perm (data.map Prod.snd) rowLe
